import Mathlib

/-! Verification of the pitch-detection kernel of the simple-guitar-tuner
repository, embedded shallowly from `src/app/audio-recorder/audio.common.ts`
(class `AudioRecorderCommon`).

Modelling conventions:
* JavaScript floating-point numbers are modelled by `ℝ` (exact real
  arithmetic); division is Lean's total real division.
* `Math.round x` is `⌊x + 1/2⌋` (ECMAScript rounds ties toward positive
  infinity).
* JavaScript `%` on integer-valued numbers truncates toward zero, which is
  `Int.tmod`; `Math.floor (a / b)` on integer-valued numbers is `Int.fdiv`.
* Audio buffers are `List ℝ`; an out-of-range array read (which the code never
  performs on the analysed paths) yields the default value `0`.
* The integer sentinel `0` returned by `autocorrelate` encodes the "no pitch"
  outcome, exactly as `detectPitch` interprets it via its `frequency > 0` test.
-/

namespace Tuner

/-- The chromatic table `NOTE_NAMES` of the source: the twelve names
C, C#, D, D#, E, F, F#, G, G#, A, A#, B in order (written here as a
concatenation of two halves). -/
def NOTE_NAMES : List String :=
  ["C", "C#", "D", "D#", "E", "F"] ++ ["F#", "G", "G#", "A", "A#", "B"]

/-- JavaScript `Math.round`: nearest integer, ties toward positive infinity. -/
noncomputable def jsRound (x : ℝ) : ℤ := ⌊x + 1 / 2⌋

/-- JavaScript `Array.prototype.indexOf` on a list of strings: index of the
first occurrence, `-1` if absent. -/
def jsIndexOf (l : List String) (s : String) : ℤ :=
  match l with
  | [] => -1
  | a :: as =>
      if a = s then 0 else if jsIndexOf as s = -1 then -1 else jsIndexOf as s + 1

/-- The `semitonesFromA4` value of `frequencyToNote`: `12 * Math.log2(frequency / referencePitch)`. -/
noncomputable def semitonesFromA4 (frequency referencePitch : ℝ) : ℝ :=
  12 * Real.logb 2 (frequency / referencePitch)

/-- The `roundedSemitones` value of `frequencyToNote`: `Math.round(semitonesFromA4)`. -/
noncomputable def roundedSemitones (f r : ℝ) : ℤ := jsRound (semitonesFromA4 f r)

/-- The `cents` value of `frequencyToNote`: `Math.round((semitonesFromA4 - roundedSemitones) * 100)`. -/
noncomputable def centsOf (f r : ℝ) : ℤ :=
  jsRound ((semitonesFromA4 f r - (roundedSemitones f r : ℝ)) * 100)

/-- The `noteIndexFromC0` value of `frequencyToNote`: `roundedSemitones + 9 + 4 * 12`. -/
noncomputable def noteIndexFromC0 (f r : ℝ) : ℤ := roundedSemitones f r + 9 + 4 * 12

/-- The `octave` value of `frequencyToNote`: `Math.floor(noteIndexFromC0 / 12)`. -/
noncomputable def octaveOf (f r : ℝ) : ℤ := (noteIndexFromC0 f r).fdiv 12

/-- The `noteIndex` value of `frequencyToNote`: `((noteIndexFromC0 % 12) + 12) % 12` with
the JavaScript truncating remainder. -/
noncomputable def noteIndexOf (f r : ℝ) : ℤ :=
  ((noteIndexFromC0 f r).tmod 12 + 12).tmod 12

/-- The record returned by `frequencyToNote` (a `PitchData` without `amplitude`). -/
structure NoteResult where
  frequency : ℝ
  note : String
  octave : ℤ
  cents : ℤ

/-- The function `AudioRecorderCommon.frequencyToNote`. -/
noncomputable def frequencyToNote (f r : ℝ) : NoteResult :=
  { frequency := f
    note := NOTE_NAMES.getD (noteIndexOf f r).toNat ""
    octave := octaveOf f r
    cents := centsOf f r }

/-- The function `AudioRecorderCommon.noteToFrequency`: `0` sentinel for an unknown note
name, otherwise `referencePitch * 2 ^ (((octave - 4) * 12 + (noteIndex - 9)) / 12)`. -/
noncomputable def noteToFrequency (note : String) (octave : ℤ) (referencePitch : ℝ) : ℝ :=
  if jsIndexOf NOTE_NAMES note = -1 then 0
  else
    referencePitch *
      (2 : ℝ) ^ ((((octave - 4) * 12 + (jsIndexOf NOTE_NAMES note - 9) : ℤ) : ℝ) / 12)

/-- The `minPeriod` value of `autocorrelate`: `Math.floor(sampleRate / 1500)`. -/
def minPeriod (sampleRate : ℕ) : ℕ := sampleRate / 1500

/-- The `maxPeriod` value of `autocorrelate`: `Math.floor(sampleRate / 60)`. -/
def maxPeriod (sampleRate : ℕ) : ℕ := sampleRate / 60

/-- Array access `audioData[i]`, reading `0` out of range. -/
def sample (xs : List ℝ) (i : ℕ) : ℝ := xs.getD i 0

/-- The difference function `diff[tau]` of `autocorrelate`. -/
noncomputable def diff (sr : ℕ) (xs : List ℝ) (tau : ℕ) : ℝ :=
  ∑ i ∈ Finset.range (xs.length - maxPeriod sr),
    (sample xs i - sample xs (i + tau)) ^ 2

/-- The value of `runningSum` after the CMNDF loop has processed lag `tau`. -/
noncomputable def runningSum (sr : ℕ) (xs : List ℝ) (tau : ℕ) : ℝ :=
  ∑ u ∈ Finset.Icc (minPeriod sr) tau, diff sr xs u

/-- The array `cmndf` of `autocorrelate` after its fill loop: entries in
`[minPeriod, maxPeriod)` hold `diff[tau] * tau / runningSum`, index `0`
otherwise holds the sentinel `1`, and all remaining entries hold `0`. -/
noncomputable def cmndf (sr : ℕ) (xs : List ℝ) (tau : ℕ) : ℝ :=
  if minPeriod sr ≤ tau ∧ tau < maxPeriod sr then
    diff sr xs tau * (tau : ℝ) / runningSum sr xs tau
  else if tau = 0 then 1 else 0

/-- First index `t` in `[lo, lo + len)` with `c t < 0.1`, if any: the search
loop of `autocorrelate` (and of spec section 4.2 step 3). -/
noncomputable def firstDip (c : ℕ → ℝ) (lo len : ℕ) : Option ℕ :=
  (List.range' lo len).find? fun t => decide (c t < 1 / 10)

/-- The descending-run walk `while (tau + 1 < maxPeriod && cmndf[tau+1] < cmndf[tau]) tau++`. -/
noncomputable def descend (c : ℕ → ℝ) (maxP tau : ℕ) : ℕ :=
  if h : tau + 1 < maxP then
    if c (tau + 1) < c tau then descend c maxP (tau + 1) else tau
  else tau
termination_by maxP - tau
decreasing_by omega

/-- The global-minimum loop of the fallback: fold the strict-improvement update
`if (cmndf[tau] < minValue)` over a list of lags, starting from an accumulator
`(bestTau, minValue)`. -/
noncomputable def argminFold (c : ℕ → ℝ) : List ℕ → ℕ × ℝ → ℕ × ℝ
  | [], p => p
  | t :: ts, p => argminFold c ts (if c t < p.2 then (t, c t) else p)

/-- The tail of `autocorrelate`: parabolic interpolation for a strictly
interior `bestTau`, then `sampleRate / betterTau`. -/
noncomputable def finish (sr : ℕ) (c : ℕ → ℝ) (minP maxP bestTau : ℕ) : ℝ :=
  if minP < bestTau ∧ bestTau < maxP - 1 then
    (sr : ℝ) /
      ((bestTau : ℝ) +
        (c (bestTau - 1) - c (bestTau + 1)) /
          (2 * (c (bestTau - 1) - 2 * c bestTau + c (bestTau + 1))))
  else (sr : ℝ) / (bestTau : ℝ)

/-- The period-selection part of `autocorrelate`, literally following the
source: scan `[minPeriod, maxPeriod - 1)` for a dip below 0.1 and walk its
descending run; if the resulting `bestTau` is still the initial sentinel `0`,
run the global-minimum fallback (returning the `0` frequency sentinel when the
minimum exceeds 0.5); finally interpolate and divide. `dipTau` is the value of
the mutable `bestTau` right after the dip-search loop (`0` when no dip in
`[minPeriod, maxPeriod - 1)` was found). -/
noncomputable def dipTau (c : ℕ → ℝ) (minP maxP : ℕ) : ℕ :=
  match firstDip c minP (maxP - 1 - minP) with
  | some t => descend c maxP t
  | none => 0

/-- The period-selection and output part of `autocorrelate`, following the
source line by line. -/
noncomputable def codeSelect (sr : ℕ) (c : ℕ → ℝ) (minP maxP : ℕ) : ℝ :=
  if dipTau c minP maxP = 0 then
    if (argminFold c (List.range' (minP + 1) (maxP - (minP + 1))) (minP, c minP)).2 > 1 / 2
      then 0
      else finish sr c minP maxP
        (argminFold c (List.range' (minP + 1) (maxP - (minP + 1))) (minP, c minP)).1
  else finish sr c minP maxP (dipTau c minP maxP)

/-- The function `AudioRecorderCommon.autocorrelate` (the `0` result is the source's
"no pitch" sentinel). -/
noncomputable def autocorrelate (sr : ℕ) (xs : List ℝ) : ℝ :=
  if xs.length < maxPeriod sr * 2 then 0
  else codeSelect sr (cmndf sr xs) (minPeriod sr) (maxPeriod sr)

/-- The RMS amplitude computed by `detectPitch`. -/
noncomputable def rms (xs : List ℝ) : ℝ :=
  Real.sqrt ((xs.map fun s => s * s).sum / (xs.length : ℝ))

/-- The function `AudioRecorderCommon.detectPitch`: noise gate, then the estimator; a
successful result is the pair `(frequency, amplitude)`. -/
noncomputable def detectPitch (sr : ℕ) (xs : List ℝ) (noiseThreshold : ℝ) :
    Option (ℝ × ℝ) :=
  if rms xs < noiseThreshold then none
  else if autocorrelate sr xs > 0 then some (autocorrelate sr xs, rms xs) else none

/-- Reference period selection written from the words of spec section 4.2,
steps 3 and 4, for comparison with `codeSelect`: scan the whole range
`[minPeriod, maxPeriod)` for the first CMNDF value below 0.1 and follow its
descending run to a local minimum; otherwise take the global minimum of the
CMNDF over `[minPeriod, maxPeriod)` (earliest occurrence), rejecting the
buffer as aperiodic (`none`) when that minimum exceeds 0.5. -/
noncomputable def refSelect (c : ℕ → ℝ) (minP maxP : ℕ) : Option ℕ :=
  match firstDip c minP (maxP - minP) with
  | some t => some (descend c maxP t)
  | none =>
      if (argminFold c (List.range' (minP + 1) (maxP - (minP + 1))) (minP, c minP)).2 > 1 / 2
        then none
        else some (argminFold c (List.range' (minP + 1) (maxP - (minP + 1))) (minP, c minP)).1

/-- Reference estimator of spec section 4.2: the selected period is refined by
3-point parabolic interpolation when strictly interior and the frequency is
`sampleRate` divided by the refined period; `none` is the aperiodic case. -/
noncomputable def refEstimate (sr : ℕ) (xs : List ℝ) : Option ℝ :=
  (refSelect (cmndf sr xs) (minPeriod sr) (maxPeriod sr)).map
    (finish sr (cmndf sr xs) (minPeriod sr) (maxPeriod sr))

@[simp] theorem frequencyToNote_frequency (f r : ℝ) : (frequencyToNote f r).frequency = f := rfl

@[simp] theorem frequencyToNote_note (f r : ℝ) :
    (frequencyToNote f r).note = NOTE_NAMES.getD (noteIndexOf f r).toNat "" := rfl

@[simp] theorem frequencyToNote_octave (f r : ℝ) :
    (frequencyToNote f r).octave = octaveOf f r := rfl

@[simp] theorem frequencyToNote_cents (f r : ℝ) : (frequencyToNote f r).cents = centsOf f r := rfl

theorem jsRound_le (x : ℝ) : (jsRound x : ℝ) ≤ x + 1 / 2 := Int.floor_le _

theorem lt_jsRound_add_one (x : ℝ) : x + 1 / 2 < (jsRound x : ℝ) + 1 := Int.lt_floor_add_one _

/-- The squared-sample sum of `detectPitch`, re-expressed as an indexed sum. -/
theorem sum_map_sq (xs : List ℝ) :
    (xs.map fun s => s * s).sum = ∑ i ∈ Finset.range xs.length, sample xs i ^ 2 := by
  induction xs with
  | nil => simp
  | cons x xs ih =>
      rw [List.map_cons, List.sum_cons, List.length_cons, Finset.sum_range_succ', ih]
      simp only [sample, List.getD_cons_succ, List.getD_cons_zero, sq]
      ring

theorem sample_replicate_zero (n i : ℕ) : sample (List.replicate n (0 : ℝ)) i = 0 := by
  rw [sample, List.getD_eq_getElem?_getD, List.getElem?_replicate]
  split <;> rfl

theorem rms_replicate_zero (n : ℕ) : rms (List.replicate n (0 : ℝ)) = 0 := by
  rw [rms, List.map_replicate]
  simp [List.sum_replicate]

/-- C2: `detectPitch` computes RMS as the square root of the mean of squared
samples; when that RMS is below the noise threshold the result is `none`
(the estimator is bypassed), and any successful result carries exactly that
RMS as its amplitude component. -/
theorem C2_detectPitch_gate_and_amplitude (sr : ℕ) (xs : List ℝ) (t : ℝ) :
    (Real.sqrt ((∑ i ∈ Finset.range xs.length, sample xs i ^ 2) / (xs.length : ℝ)) < t →
        detectPitch sr xs t = none) ∧
      (detectPitch sr xs t = none ∨
        detectPitch sr xs t =
          some (autocorrelate sr xs,
            Real.sqrt ((∑ i ∈ Finset.range xs.length, sample xs i ^ 2) / (xs.length : ℝ)))) := by
  have hr : rms xs =
      Real.sqrt ((∑ i ∈ Finset.range xs.length, sample xs i ^ 2) / (xs.length : ℝ)) := by
    rw [rms, sum_map_sq]
  constructor
  · intro h
    rw [detectPitch, if_pos (by rw [hr]; exact h)]
  · rw [detectPitch]
    split
    · exact Or.inl rfl
    · split
      · exact Or.inr (by rw [hr])
      · exact Or.inl rfl

theorem C2_witness : detectPitch 1500 (List.replicate 50 (0 : ℝ)) 1 = none := by
  apply (C2_detectPitch_gate_and_amplitude 1500 (List.replicate 50 (0 : ℝ)) 1).1
  have hz : ∀ i ∈ Finset.range (List.replicate 50 (0 : ℝ)).length,
      sample (List.replicate 50 (0 : ℝ)) i ^ 2 = 0 := by
    intro i _
    rw [sample_replicate_zero]
    ring
  rw [Finset.sum_eq_zero hz, zero_div, Real.sqrt_zero]
  norm_num

/-- C3: a buffer strictly shorter than `2 * maxPeriod` always yields `none`,
whatever its samples and whatever the noise threshold: either the RMS gate
fires, or `autocorrelate` returns its insufficient-data sentinel `0`, which
`detectPitch` maps to `none`. -/
theorem C3_short_buffer_none (sr : ℕ) (xs : List ℝ) (t : ℝ)
    (h : xs.length < 2 * maxPeriod sr) : detectPitch sr xs t = none := by
  have ha : autocorrelate sr xs = 0 := by
    rw [autocorrelate, if_pos (by omega)]
  rw [detectPitch]
  split
  · rfl
  · rw [ha, if_neg (by norm_num)]

theorem C3_witness : detectPitch 44100 [(1 : ℝ)] 0 = none :=
  C3_short_buffer_none 44100 [(1 : ℝ)] 0 (by norm_num [maxPeriod])

/-- C5: the note mapper is a pure log-ratio: scaling frequency and reference
pitch by the same positive factor leaves note, octave and cents unchanged. -/
theorem C5_scale_invariance (f r k : ℝ) (_hf : 0 < f) (_hr : 0 < r) (hk : 0 < k) :
    (frequencyToNote (k * f) (k * r)).note = (frequencyToNote f r).note ∧
      (frequencyToNote (k * f) (k * r)).octave = (frequencyToNote f r).octave ∧
      (frequencyToNote (k * f) (k * r)).cents = (frequencyToNote f r).cents := by
  have hs : semitonesFromA4 (k * f) (k * r) = semitonesFromA4 f r := by
    rw [semitonesFromA4, semitonesFromA4, mul_div_mul_left _ _ (ne_of_gt hk)]
  refine ⟨?_, ?_, ?_⟩ <;>
    simp only [frequencyToNote_note, frequencyToNote_octave, frequencyToNote_cents,
      noteIndexOf, noteIndexFromC0, octaveOf, centsOf, roundedSemitones, hs]

theorem C5_witness :
    (frequencyToNote (2 * 440) (2 * 440)).note = (frequencyToNote 440 440).note ∧
      (frequencyToNote (2 * 440) (2 * 440)).octave = (frequencyToNote 440 440).octave ∧
      (frequencyToNote (2 * 440) (2 * 440)).cents = (frequencyToNote 440 440).cents :=
  C5_scale_invariance 440 440 2 (by norm_num) (by norm_num) (by norm_num)

/-- C6: the cents deviation reported by `frequencyToNote` always lies in
`[-50, 50]` (it is an integer by construction in this embedding, being the
value of `Math.round`). -/
theorem C6_cents_in_range (f r : ℝ) (_hf : 0 < f) (_hr : 0 < r) :
    -50 ≤ (frequencyToNote f r).cents ∧ (frequencyToNote f r).cents ≤ 50 := by
  rw [frequencyToNote_cents]
  have h1 : ((roundedSemitones f r : ℤ) : ℝ) ≤ semitonesFromA4 f r + 1 / 2 := jsRound_le _
  have h2 : semitonesFromA4 f r + 1 / 2 < ((roundedSemitones f r : ℤ) : ℝ) + 1 :=
    lt_jsRound_add_one _
  constructor
  · rw [centsOf, jsRound]
    apply Int.le_floor.mpr
    push_cast
    linarith
  · rw [centsOf, jsRound]
    have h3 : ((semitonesFromA4 f r - (roundedSemitones f r : ℝ)) * 100 + 1 / 2) < 51 := by
      linarith
    have h4 := Int.floor_lt.mpr (by exact_mod_cast h3 :
      (semitonesFromA4 f r - (roundedSemitones f r : ℝ)) * 100 + 1 / 2 < ((51 : ℤ) : ℝ))
    omega

theorem C6_witness :
    -50 ≤ (frequencyToNote 440 440).cents ∧ (frequencyToNote 440 440).cents ≤ 50 :=
  C6_cents_in_range 440 440 (by norm_num) (by norm_num)

theorem neg_lt_tmod_twelve : ∀ n : ℤ, -12 < n.tmod 12
  | Int.ofNat m =>
      lt_of_lt_of_le (by norm_num) (Int.tmod_nonneg 12 (Int.ofNat_nonneg m))
  | Int.negSucc m => by
      show -12 < -(((m + 1) % 12 : ℕ) : ℤ)
      have h : (m + 1) % 12 < 12 := Nat.mod_lt _ (by norm_num)
      omega

/-- The double-remainder trick of the source equals the mathematical
(Euclidean) remainder, for every integer dividend. -/
theorem tmod_plus_twelve_tmod (n : ℤ) : (n.tmod 12 + 12).tmod 12 = n % 12 := by
  have h1 : n.tmod 12 = n - 12 * n.tdiv 12 := Int.tmod_def n 12
  have h2 : n.tmod 12 < 12 := Int.tmod_lt_of_pos n (by norm_num)
  have h3 : -12 < n.tmod 12 := neg_lt_tmod_twelve n
  have h4 : (n.tmod 12 + 12).tmod 12 = (n.tmod 12 + 12) % 12 :=
    Int.tmod_eq_emod (by omega) (by norm_num)
  rw [h4]
  omega

theorem noteIndexOf_nonneg_lt (f r : ℝ) : 0 ≤ noteIndexOf f r ∧ noteIndexOf f r < 12 := by
  rw [noteIndexOf, tmod_plus_twelve_tmod]
  exact ⟨Int.emod_nonneg _ (by norm_num), Int.emod_lt_of_pos _ (by norm_num)⟩

/-- C7: the note index `((noteIndexFromC0 % 12) + 12) % 12` lies in `[0, 12)`
for every input (in particular for negative `noteIndexFromC0`), so the
chromatic-table lookup is in bounds and the reported note is one of the 12
chromatic names. -/
theorem C7_note_index_in_bounds (f r : ℝ) (_hf : 0 < f) (_hr : 0 < r) :
    (0 ≤ noteIndexOf f r ∧ noteIndexOf f r < 12) ∧
      (frequencyToNote f r).note ∈ NOTE_NAMES := by
  have h := noteIndexOf_nonneg_lt f r
  refine ⟨h, ?_⟩
  rw [frequencyToNote_note]
  have hlt : (noteIndexOf f r).toNat < NOTE_NAMES.length := by
    have : NOTE_NAMES.length = 12 := rfl
    omega
  rw [List.getD_eq_getElem?_getD, List.getElem?_eq_getElem hlt, Option.getD_some]
  exact List.getElem_mem hlt

theorem C7_witness :
    (0 ≤ noteIndexOf 440 440 ∧ noteIndexOf 440 440 < 12) ∧
      (frequencyToNote 440 440).note ∈ NOTE_NAMES :=
  C7_note_index_in_bounds 440 440 (by norm_num) (by norm_num)

theorem neg_one_le_jsIndexOf (l : List String) (s : String) : -1 ≤ jsIndexOf l s := by
  induction l with
  | nil => simp [jsIndexOf]
  | cons a as ih =>
      rw [jsIndexOf]
      split_ifs <;> omega

/-- The `-1` sentinel of `indexOf` characterises exactly the absent names. -/
theorem jsIndexOf_eq_neg_one_iff (l : List String) (s : String) :
    jsIndexOf l s = -1 ↔ s ∉ l := by
  induction l with
  | nil => simp [jsIndexOf]
  | cons a as ih =>
      have hge := neg_one_le_jsIndexOf as s
      rw [jsIndexOf, List.mem_cons]
      split_ifs with h1 h2
      · exact iff_of_false (by norm_num) (by push_neg; exact Or.inl h1.symm)
      · refine iff_of_true rfl ?_
        rintro (rfl | hm)
        · exact h1 rfl
        · exact (ih.mp h2) hm
      · have hmem : s ∈ as := by
          by_contra hx
          exact h2 (ih.mpr hx)
        exact iff_of_false (by omega) (fun hc => hc (Or.inr hmem))

/-- C8: `noteToFrequency` returns the `0` sentinel exactly for names outside
the chromatic table; for a recognised name it returns
`referencePitch * 2 ^ (((octave - 4) * 12 + (noteIndex - 9)) / 12)`, which is
strictly positive for a positive reference pitch. -/
theorem C8_noteToFrequency_contract (note : String) (octave : ℤ) (r : ℝ) :
    (note ∉ NOTE_NAMES → noteToFrequency note octave r = 0) ∧
      (note ∈ NOTE_NAMES → 0 < r →
        noteToFrequency note octave r =
            r * (2 : ℝ) ^
              ((((octave - 4) * 12 + (jsIndexOf NOTE_NAMES note - 9) : ℤ) : ℝ) / 12) ∧
          0 < noteToFrequency note octave r) := by
  constructor
  · intro h
    rw [noteToFrequency, if_pos ((jsIndexOf_eq_neg_one_iff _ _).mpr h)]
  · intro h hr
    have hne : jsIndexOf NOTE_NAMES note ≠ -1 :=
      fun hc => ((jsIndexOf_eq_neg_one_iff _ _).mp hc) h
    rw [noteToFrequency, if_neg hne]
    exact ⟨rfl, mul_pos hr (Real.rpow_pos_of_pos (by norm_num) _)⟩

theorem C8_witness :
    noteToFrequency "H" 4 440 = 0 ∧ 0 < noteToFrequency "A" 4 440 :=
  ⟨(C8_noteToFrequency_contract "H" 4 440).1 (by decide),
    ((C8_noteToFrequency_contract "A" 4 440).2 (by decide) (by norm_num)).2⟩

/-- Value of `semitonesFromA4` at exact powers of two over the reference pitch. -/
theorem semitones_of_rpow (y : ℝ) :
    semitonesFromA4 (440 * (2 : ℝ) ^ y) 440 = 12 * y := by
  rw [semitonesFromA4, mul_div_cancel_left₀ _ (by norm_num : (440 : ℝ) ≠ 0),
    Real.logb_rpow (by norm_num) (by norm_num)]

/-- C9 (counterexample): at the exact half-semitone point
`f = 440 * 2 ^ (-1/24)`, `r = 440`, `semitonesFromA4` is exactly `-1/2`, and
the code's `Math.round` sends it to `0` — toward positive infinity — not to
`-1` away from zero as the claim states. -/
theorem C9_counterexample :
    semitonesFromA4 (440 * (2 : ℝ) ^ (-(1 / 24) : ℝ)) 440 = -(1 / 2) ∧
      roundedSemitones (440 * (2 : ℝ) ^ (-(1 / 24) : ℝ)) 440 = 0 := by
  have h := semitones_of_rpow (-(1 / 24))
  constructor
  · rw [h]; norm_num
  · rw [roundedSemitones, jsRound, h]
    have he : (12 : ℝ) * -(1 / 24) + 1 / 2 = 0 := by norm_num
    rw [he, Int.floor_zero]

/-- C9 (amended): `roundedSemitones` rounds half-way values of
`semitonesFromA4` toward positive infinity: an exact `n + 1/2` becomes
`n + 1` (so `-0.5` rounds to `0`, not to `-1`). -/
theorem C9_amended_round_half_up (f r : ℝ) (n : ℤ)
    (h : semitonesFromA4 f r = (n : ℝ) + 1 / 2) :
    roundedSemitones f r = n + 1 := by
  rw [roundedSemitones, jsRound, h]
  have he : ((n : ℝ) + 1 / 2) + 1 / 2 = ((n + 1 : ℤ) : ℝ) := by push_cast; ring
  rw [he, Int.floor_intCast]

theorem C9_witness : roundedSemitones (440 * (2 : ℝ) ^ ((1 / 24) : ℝ)) 440 = 0 + 1 :=
  C9_amended_round_half_up _ _ 0 (by rw [semitones_of_rpow]; norm_num)

/-- Looking a chromatic-table entry back up recovers its index. -/
theorem jsIndexOf_getD_table (j : ℤ) (h0 : 0 ≤ j) (h12 : j < 12) :
    jsIndexOf NOTE_NAMES (NOTE_NAMES.getD j.toNat "") = j := by
  interval_cases j <;> decide

/-- Feeding the note mapper's output into the inverse mapper yields exactly
`r * 2 ^ (roundedSemitones / 12)`. -/
theorem noteToFrequency_of_frequencyToNote (f r : ℝ) :
    noteToFrequency (frequencyToNote f r).note (frequencyToNote f r).octave r =
      r * (2 : ℝ) ^ (((roundedSemitones f r : ℤ) : ℝ) / 12) := by
  have hrange := noteIndexOf_nonneg_lt f r
  have hidx : jsIndexOf NOTE_NAMES (frequencyToNote f r).note = noteIndexOf f r := by
    rw [frequencyToNote_note]
    exact jsIndexOf_getD_table _ hrange.1 hrange.2
  have hne : jsIndexOf NOTE_NAMES (frequencyToNote f r).note ≠ -1 := by
    rw [hidx]; omega
  rw [noteToFrequency, if_neg hne, hidx, frequencyToNote_octave]
  have key : (octaveOf f r - 4) * 12 + (noteIndexOf f r - 9) = roundedSemitones f r := by
    have h1 : octaveOf f r = noteIndexFromC0 f r / 12 := by
      rw [octaveOf, Int.fdiv_eq_ediv _ (by norm_num)]
    have h2 : noteIndexOf f r = noteIndexFromC0 f r % 12 := by
      rw [noteIndexOf, tmod_plus_twelve_tmod]
    have h3 : noteIndexFromC0 f r = roundedSemitones f r + 9 + 4 * 12 := rfl
    omega
  rw [key]

/-- The reference pitch scaled by `2 ^ (semitonesFromA4 / 12)` recovers the
input frequency. -/
theorem rpow_semitones_recovers (f r : ℝ) (hf : 0 < f) (hr : 0 < r) :
    r * (2 : ℝ) ^ (semitonesFromA4 f r / 12) = f := by
  rw [semitonesFromA4]
  have he : 12 * Real.logb 2 (f / r) / 12 = Real.logb 2 (f / r) := by ring
  rw [he, Real.rpow_logb (by norm_num) (by norm_num) (div_pos hf hr), mul_comm,
    div_mul_cancel₀ _ (ne_of_gt hr)]

/-- C4: round-trip law — mapping a frequency to its nearest note and back
through the inverse mapper lands within one semitone ratio (a factor of
`2 ^ (1/12)`) of the original frequency. -/
theorem C4_round_trip (f r : ℝ) (hf : 0 < f) (hr : 0 < r) :
    f * (2 : ℝ) ^ (-(1 / 12) : ℝ) ≤
        noteToFrequency (frequencyToNote f r).note (frequencyToNote f r).octave r ∧
      noteToFrequency (frequencyToNote f r).note (frequencyToNote f r).octave r ≤
        f * (2 : ℝ) ^ ((1 / 12) : ℝ) := by
  rw [noteToFrequency_of_frequencyToNote f r]
  have hb1 : ((roundedSemitones f r : ℤ) : ℝ) ≤ semitonesFromA4 f r + 1 / 2 := by
    rw [roundedSemitones, jsRound]; exact Int.floor_le _
  have hb2 : semitonesFromA4 f r + 1 / 2 < ((roundedSemitones f r : ℤ) : ℝ) + 1 := by
    rw [roundedSemitones, jsRound]; exact Int.lt_floor_add_one _
  have hsplit : r * (2 : ℝ) ^ (((roundedSemitones f r : ℤ) : ℝ) / 12) =
      f * (2 : ℝ) ^ ((((roundedSemitones f r : ℤ) : ℝ) - semitonesFromA4 f r) / 12) := by
    have he : ((roundedSemitones f r : ℤ) : ℝ) / 12 =
        semitonesFromA4 f r / 12 +
          (((roundedSemitones f r : ℤ) : ℝ) - semitonesFromA4 f r) / 12 := by
      ring
    rw [he, Real.rpow_add (by norm_num), ← mul_assoc, rpow_semitones_recovers f r hf hr]
  rw [hsplit]
  constructor
  · refine mul_le_mul_of_nonneg_left ?_ (le_of_lt hf)
    refine Real.rpow_le_rpow_of_exponent_le (by norm_num) ?_
    linarith
  · refine mul_le_mul_of_nonneg_left ?_ (le_of_lt hf)
    refine Real.rpow_le_rpow_of_exponent_le (by norm_num) ?_
    linarith

theorem C4_witness :
    (440 : ℝ) * (2 : ℝ) ^ (-(1 / 12) : ℝ) ≤
        noteToFrequency (frequencyToNote 440 440).note (frequencyToNote 440 440).octave 440 ∧
      noteToFrequency (frequencyToNote 440 440).note (frequencyToNote 440 440).octave 440 ≤
        (440 : ℝ) * (2 : ℝ) ^ ((1 / 12) : ℝ) :=
  C4_round_trip 440 440 (by norm_num) (by norm_num)

theorem diff_replicate_zero (sr n tau : ℕ) :
    diff sr (List.replicate n (0 : ℝ)) tau = 0 :=
  Finset.sum_eq_zero fun i _ => by
    rw [sample_replicate_zero, sample_replicate_zero]
    norm_num

theorem cmndf_replicate_zero (sr n tau : ℕ)
    (h : minPeriod sr ≤ tau ∧ tau < maxPeriod sr) :
    cmndf sr (List.replicate n (0 : ℝ)) tau = 0 := by
  rw [cmndf, if_pos h, diff_replicate_zero, zero_mul, zero_div]

/-- C10 (counterexample): at `noiseThreshold = 0` the all-zero buffer is NOT
rejected — its RMS `0` is not below the threshold, and on the all-zero signal
the estimator's CMNDF is identically zero on the scanned range, so the very
first lag `minPeriod` is taken as the period and `detectPitch` returns
`some (sampleRate / minPeriod, 0)` instead of `none`.  Shown here at
`sampleRate = 1500` (`minPeriod = 1`, `maxPeriod = 25`) with 50 zero samples. -/
theorem C10_counterexample : detectPitch 1500 (List.replicate 50 (0 : ℝ)) 0 ≠ none := by
  have hc : ∀ tau : ℕ, 1 ≤ tau → tau < 25 →
      cmndf 1500 (List.replicate 50 (0 : ℝ)) tau = 0 := by
    intro tau h1 h2
    exact cmndf_replicate_zero 1500 50 tau
      ⟨by rw [show minPeriod 1500 = 1 from rfl]; omega,
        by rw [show maxPeriod 1500 = 25 from rfl]; omega⟩
  have hfd : firstDip (cmndf 1500 (List.replicate 50 (0 : ℝ))) 1 23 = some 1 := by
    rw [firstDip, show (23 : ℕ) = 22 + 1 from rfl, List.range'_succ]
    refine List.find?_cons_of_pos _ ?_
    simp only [decide_eq_true_eq]
    rw [hc 1 le_rfl (by norm_num)]
    norm_num
  have hdes : descend (cmndf 1500 (List.replicate 50 (0 : ℝ))) 25 1 = 1 := by
    rw [descend.eq_def, dif_pos (by norm_num : (1 : ℕ) + 1 < 25),
      if_neg (by rw [hc 2 (by norm_num) (by norm_num), hc 1 le_rfl (by norm_num)]; norm_num)]
  have hdip : dipTau (cmndf 1500 (List.replicate 50 (0 : ℝ))) 1 25 = 1 := by
    have e : (25 : ℕ) - 1 - 1 = 23 := rfl
    rw [dipTau, e, hfd]
    exact hdes
  have hauto : autocorrelate 1500 (List.replicate 50 (0 : ℝ)) = 1500 := by
    rw [autocorrelate,
      if_neg (by rw [List.length_replicate, show maxPeriod 1500 = 25 from rfl]; norm_num),
      show minPeriod 1500 = 1 from rfl, show maxPeriod 1500 = 25 from rfl, codeSelect,
      if_neg (by rw [hdip]; norm_num), hdip, finish, if_neg (by norm_num)]
    norm_num
  rw [detectPitch, if_neg (by rw [rms_replicate_zero]; norm_num), hauto,
    if_pos (by norm_num)]
  simp

/-- C10 (amended): for an all-zero buffer of length at least `2 * maxPeriod`
and any strictly positive noise threshold, `detectPitch` returns `none` (the
RMS `0` falls below the threshold).  The original claim also included
`noiseThreshold = 0`, where the gate does not fire and the estimator in fact
reports a pitch, as the counterexample shows. -/
theorem C10_amended_silence_below_positive_threshold (sr n : ℕ) (t : ℝ)
    (_hlen : 2 * maxPeriod sr ≤ n) (ht : 0 < t) :
    detectPitch sr (List.replicate n (0 : ℝ)) t = none := by
  rw [detectPitch, if_pos (by rw [rms_replicate_zero]; exact ht)]

theorem C10_witness : detectPitch 1500 (List.replicate 50 (0 : ℝ)) (1 / 2) = none :=
  C10_amended_silence_below_positive_threshold 1500 50 (1 / 2)
    (by rw [show maxPeriod 1500 = 25 from rfl]) (by norm_num)

theorem le_descend (c : ℕ → ℝ) (maxP tau : ℕ) : tau ≤ descend c maxP tau := by
  rw [descend.eq_def]
  split
  · split
    · exact le_trans (Nat.le_succ tau) (le_descend c maxP (tau + 1))
    · exact le_rfl
  · exact le_rfl
termination_by maxP - tau
decreasing_by omega

theorem firstDip_mem (c : ℕ → ℝ) (lo len t : ℕ) (h : firstDip c lo len = some t) :
    lo ≤ t ∧ t < lo + len ∧ c t < 1 / 10 := by
  have hm := List.mem_of_find?_eq_some h
  have hp := List.find?_some h
  rw [List.mem_range'] at hm
  obtain ⟨i, hi, rfl⟩ := hm
  exact ⟨by omega, by omega, by simpa using hp⟩

theorem firstDip_zero_len (c : ℕ → ℝ) (lo : ℕ) : firstDip c lo 0 = none := rfl

theorem firstDip_succ_of_some (c : ℕ → ℝ) (lo len t : ℕ)
    (h : firstDip c lo len = some t) : firstDip c lo (len + 1) = some t := by
  rw [firstDip, List.range'_1_concat, List.find?_append]
  rw [firstDip] at h
  rw [h, Option.or_some]

theorem firstDip_succ_of_none (c : ℕ → ℝ) (lo len : ℕ)
    (h : firstDip c lo len = none) :
    firstDip c lo (len + 1) =
      if c (lo + len) < 1 / 10 then some (lo + len) else none := by
  rw [firstDip, List.range'_1_concat, List.find?_append]
  rw [firstDip] at h
  rw [h, Option.none_or]
  by_cases hc : c (lo + len) < 1 / 10
  · rw [if_pos hc]
    exact List.find?_cons_of_pos _ (by simpa using hc)
  · rw [if_neg hc, List.find?_cons_of_neg _ (by simpa using hc)]
    rfl

theorem firstDip_none_forall (c : ℕ → ℝ) (lo len : ℕ)
    (h : firstDip c lo len = none) (t : ℕ) (h1 : lo ≤ t) (h2 : t < lo + len) :
    ¬ c t < 1 / 10 := by
  rw [firstDip, List.find?_eq_none] at h
  have hmem : t ∈ List.range' lo len := by
    rw [List.mem_range']
    exact ⟨t - lo, by omega, by omega⟩
  simpa using h t hmem

theorem argminFold_stay (c : ℕ → ℝ) (l : List ℕ) (b : ℕ) (v : ℝ)
    (h : ∀ t ∈ l, ¬ c t < v) : argminFold c l (b, v) = (b, v) := by
  induction l with
  | nil => rfl
  | cons t ts ih =>
      simp only [argminFold]
      rw [if_neg (h t (List.mem_cons_self t ts))]
      exact ih fun u hu => h u (List.mem_cons_of_mem _ hu)

theorem argminFold_snd_le (c : ℕ → ℝ) (l : List ℕ) (p : ℕ × ℝ) :
    (argminFold c l p).2 ≤ p.2 ∧ ∀ t ∈ l, (argminFold c l p).2 ≤ c t := by
  induction l generalizing p with
  | nil => exact ⟨le_rfl, by simp⟩
  | cons t ts ih =>
      simp only [argminFold]
      have hq : (if c t < p.2 then (t, c t) else p).2 ≤ p.2 ∧
          (if c t < p.2 then (t, c t) else p).2 ≤ c t := by
        split_ifs with h
        · exact ⟨le_of_lt h, le_rfl⟩
        · exact ⟨le_rfl, le_of_not_lt h⟩
      obtain ⟨ih1, ih2⟩ := ih (if c t < p.2 then (t, c t) else p)
      refine ⟨le_trans ih1 hq.1, ?_⟩
      intro u hu
      rcases List.mem_cons.mp hu with rfl | hu
      · exact le_trans ih1 hq.2
      · exact ih2 u hu

theorem argminFold_cases (c : ℕ → ℝ) (l : List ℕ) (p : ℕ × ℝ) :
    argminFold c l p = p ∨ ∃ t ∈ l, argminFold c l p = (t, c t) := by
  induction l generalizing p with
  | nil => exact Or.inl rfl
  | cons t ts ih =>
      simp only [argminFold]
      split_ifs with h
      · rcases ih (t, c t) with h1 | ⟨u, hu, h2⟩
        · exact Or.inr ⟨t, List.mem_cons_self t ts, h1⟩
        · exact Or.inr ⟨u, List.mem_cons_of_mem _ hu, h2⟩
      · rcases ih p with h1 | ⟨u, hu, h2⟩
        · exact Or.inl h1
        · exact Or.inr ⟨u, List.mem_cons_of_mem _ hu, h2⟩

theorem diff_nonneg (sr : ℕ) (xs : List ℝ) (tau : ℕ) : 0 ≤ diff sr xs tau :=
  Finset.sum_nonneg fun _ _ => sq_nonneg _

theorem runningSum_nonneg (sr : ℕ) (xs : List ℝ) (tau : ℕ) : 0 ≤ runningSum sr xs tau :=
  Finset.sum_nonneg fun u _ => diff_nonneg sr xs u

theorem cmndf_nonneg (sr : ℕ) (xs : List ℝ) (tau : ℕ) : 0 ≤ cmndf sr xs tau := by
  rw [cmndf]
  split_ifs
  · exact div_nonneg (mul_nonneg (diff_nonneg sr xs tau) (Nat.cast_nonneg tau))
      (runningSum_nonneg sr xs tau)
  · norm_num
  · exact le_rfl

theorem cmndf_zero_of_minPeriod_zero (sr : ℕ) (xs : List ℝ)
    (h0 : minPeriod sr = 0) (hmax : 0 < maxPeriod sr) : cmndf sr xs 0 = 0 := by
  rw [cmndf, if_pos ⟨by omega, hmax⟩]
  norm_num

theorem cmndf_one_of_maxPeriod_zero (sr : ℕ) (xs : List ℝ)
    (hmax : maxPeriod sr = 0) : cmndf sr xs 0 = 1 := by
  rw [cmndf, if_neg (by omega), if_pos rfl]

/-- When neither scan finds a dip below the threshold, code and reference run
the identical global-minimum fallback. -/
theorem fallback_eq (sr : ℕ) (c : ℕ → ℝ) (minP maxP : ℕ)
    (hcode : firstDip c minP (maxP - 1 - minP) = none)
    (href : firstDip c minP (maxP - minP) = none) :
    codeSelect sr c minP maxP =
      ((refSelect c minP maxP).map (finish sr c minP maxP)).getD 0 := by
  have hd : dipTau c minP maxP = 0 := by rw [dipTau, hcode]
  have hr : refSelect c minP maxP =
      (if (argminFold c (List.range' (minP + 1) (maxP - (minP + 1))) (minP, c minP)).2 > 1 / 2
        then none
        else some
          (argminFold c (List.range' (minP + 1) (maxP - (minP + 1))) (minP, c minP)).1) := by
    rw [refSelect, href]
  rw [codeSelect, if_pos hd, hr]
  split_ifs with h
  · rfl
  · rfl

/-- When the code's scan over `[minP, maxP - 1)` finds a dip, the reference
scan over `[minP, maxP)` finds the same one and both walk the same run. -/
theorem dip_case_eq (sr : ℕ) (c : ℕ → ℝ) (minP maxP t : ℕ) (h1 : 1 ≤ minP)
    (hcode : firstDip c minP (maxP - 1 - minP) = some t) :
    codeSelect sr c minP maxP =
      ((refSelect c minP maxP).map (finish sr c minP maxP)).getD 0 := by
  obtain ⟨hlo, hhi, _⟩ := firstDip_mem c minP _ t hcode
  have hmm : maxP - minP = (maxP - 1 - minP) + 1 := by omega
  have href : firstDip c minP (maxP - minP) = some t := by
    rw [hmm]
    exact firstDip_succ_of_some c minP _ t hcode
  have hd : dipTau c minP maxP = descend c maxP t := by rw [dipTau, hcode]
  have hne : dipTau c minP maxP ≠ 0 := by
    have := le_descend c maxP t
    omega
  have hr : refSelect c minP maxP = some (descend c maxP t) := by rw [refSelect, href]
  rw [codeSelect, if_neg hne, hd, hr]
  rfl

/-- When only the very last lag `maxP - 1` dips below the threshold, the
reference selects it through the dip branch while the code reaches it through
the global-minimum fallback; the selected lag coincides. -/
theorem last_dip_case_eq (sr : ℕ) (c : ℕ → ℝ) (minP maxP : ℕ) (h1 : 1 ≤ minP)
    (hord : minP < maxP)
    (hcode : firstDip c minP (maxP - 1 - minP) = none)
    (hc : c (maxP - 1) < 1 / 10) :
    codeSelect sr c minP maxP =
      ((refSelect c minP maxP).map (finish sr c minP maxP)).getD 0 := by
  have hmm : maxP - minP = (maxP - 1 - minP) + 1 := by omega
  have hlast : minP + (maxP - 1 - minP) = maxP - 1 := by omega
  have href : firstDip c minP (maxP - minP) = some (maxP - 1) := by
    rw [hmm, firstDip_succ_of_none c minP _ hcode, hlast, if_pos hc]
  have hdes : descend c maxP (maxP - 1) = maxP - 1 := by
    rw [descend.eq_def, dif_neg (by omega : ¬ (maxP - 1) + 1 < maxP)]
  have hr : refSelect c minP maxP = some (maxP - 1) := by
    rw [refSelect, href]
    show some (descend c maxP (maxP - 1)) = some (maxP - 1)
    rw [hdes]
  have hd : dipTau c minP maxP = 0 := by rw [dipTau, hcode]
  rw [codeSelect, if_pos hd, hr]
  rcases Nat.lt_or_ge (minP + 1) maxP with hcase | hcase
  · -- at least one element in the fallback list
    have hforall := firstDip_none_forall c minP _ hcode
    have hmeml : (maxP - 1) ∈ List.range' (minP + 1) (maxP - (minP + 1)) := by
      rw [List.mem_range']
      exact ⟨maxP - 1 - (minP + 1), by omega, by omega⟩
    obtain ⟨hle1, hle2⟩ :=
      argminFold_snd_le c (List.range' (minP + 1) (maxP - (minP + 1))) (minP, c minP)
    have hple := hle2 _ hmeml
    have hp : argminFold c (List.range' (minP + 1) (maxP - (minP + 1))) (minP, c minP) =
        (maxP - 1, c (maxP - 1)) := by
      rcases argminFold_cases c (List.range' (minP + 1) (maxP - (minP + 1))) (minP, c minP)
        with he | ⟨u, hu, he⟩
      · exfalso
        have hnm : ¬ c minP < 1 / 10 := hforall minP le_rfl (by omega)
        rw [he] at hple
        simp only at hple
        linarith
      · obtain ⟨i, hi, rfl⟩ := List.mem_range'.mp hu
        by_cases hu2 : minP + 1 + 1 * i = maxP - 1
        · rw [he, hu2]
        · exfalso
          have hnm : ¬ c (minP + 1 + 1 * i) < 1 / 10 := hforall _ (by omega) (by omega)
          rw [he] at hple
          simp only at hple
          linarith
    rw [hp]
    rw [if_neg (by show ¬ c (maxP - 1) > 1 / 2; linarith)]
    rfl
  · -- empty fallback list: maxP = minP + 1 and the initial accumulator wins
    have hempty : maxP - (minP + 1) = 0 := by omega
    have hmp : maxP - 1 = minP := by omega
    rw [hempty, List.range'_zero]
    simp only [argminFold]
    rw [if_neg (by show ¬ c minP > 1 / 2; rw [← hmp]; linarith)]
    show finish sr c minP maxP minP = finish sr c minP maxP (maxP - 1)
    rw [hmp]

/-- Code and reference selection agree whenever `minPeriod` is at least 1,
for an arbitrary CMNDF. -/
theorem codeSelect_eq_refSelect (sr : ℕ) (c : ℕ → ℝ) (minP maxP : ℕ) (h1 : 1 ≤ minP) :
    codeSelect sr c minP maxP =
      ((refSelect c minP maxP).map (finish sr c minP maxP)).getD 0 := by
  rcases hfd : firstDip c minP (maxP - 1 - minP) with _ | t
  · by_cases hord : minP < maxP
    · by_cases hc : c (maxP - 1) < 1 / 10
      · exact last_dip_case_eq sr c minP maxP h1 hord hfd hc
      · have href : firstDip c minP (maxP - minP) = none := by
          rw [show maxP - minP = (maxP - 1 - minP) + 1 from by omega,
            firstDip_succ_of_none c minP _ hfd,
            show minP + (maxP - 1 - minP) = maxP - 1 from by omega, if_neg hc]
        exact fallback_eq sr c minP maxP hfd href
    · have href : firstDip c minP (maxP - minP) = none := by
        rw [show maxP - minP = 0 from by omega]
        rfl
      exact fallback_eq sr c minP maxP hfd href
  · exact dip_case_eq sr c minP maxP t h1 hfd

/-- Code and reference selection also agree when `minPeriod = 0`
(sample rates below 1500 Hz): the CMNDF vanishes at lag 0, both take lag 0,
and both end up dividing the sample rate by zero, the total-division rendering
of the same degenerate output. -/
theorem codeSelect_eq_refSelect_zero (sr : ℕ) (xs : List ℝ) (h0 : minPeriod sr = 0) :
    codeSelect sr (cmndf sr xs) (minPeriod sr) (maxPeriod sr) =
      ((refSelect (cmndf sr xs) (minPeriod sr) (maxPeriod sr)).map
        (finish sr (cmndf sr xs) (minPeriod sr) (maxPeriod sr))).getD 0 := by
  rw [h0]
  rcases Nat.eq_zero_or_pos (maxPeriod sr) with hm | hm
  · refine fallback_eq sr (cmndf sr xs) 0 (maxPeriod sr) ?_ ?_
    · rw [show maxPeriod sr - 1 - 0 = 0 from by omega]
      rfl
    · rw [show maxPeriod sr - 0 = 0 from by omega]
      rfl
  · have hc0 : cmndf sr xs 0 = 0 := cmndf_zero_of_minPeriod_zero sr xs h0 hm
    have href : firstDip (cmndf sr xs) 0 (maxPeriod sr - 0) = some 0 := by
      rw [show maxPeriod sr - 0 = (maxPeriod sr - 1) + 1 from by omega, firstDip,
        List.range'_succ]
      refine List.find?_cons_of_pos _ ?_
      simp only [decide_eq_true_eq]
      rw [hc0]
      norm_num
    have hdes0 : descend (cmndf sr xs) (maxPeriod sr) 0 = 0 := by
      rw [descend.eq_def]
      split
      · rw [if_neg (by rw [hc0]; exact not_lt.mpr (cmndf_nonneg sr xs (0 + 1)))]
      · rfl
    have hr : refSelect (cmndf sr xs) 0 (maxPeriod sr) = some 0 := by
      rw [refSelect, href]
      show some (descend (cmndf sr xs) (maxPeriod sr) 0) = some 0
      rw [hdes0]
    rcases Nat.lt_or_ge (maxPeriod sr) 2 with hm2 | hm2
    · -- maxPeriod = 1: the code's dip scan is empty, the fallback list too
      have hcode : firstDip (cmndf sr xs) 0 (maxPeriod sr - 1 - 0) = none := by
        rw [show maxPeriod sr - 1 - 0 = 0 from by omega]
        rfl
      have hd : dipTau (cmndf sr xs) 0 (maxPeriod sr) = 0 := by rw [dipTau, hcode]
      rw [codeSelect, if_pos hd, hr, show maxPeriod sr - (0 + 1) = 0 from by omega,
        List.range'_zero]
      simp only [argminFold]
      rw [if_neg (by show ¬ cmndf sr xs 0 > 1 / 2; rw [hc0]; norm_num)]
      rfl
    · -- maxPeriod at least 2: the code's dip scan finds lag 0, whose walk ends
      -- at 0, which the code conflates with its sentinel and so falls back
      have hcode : firstDip (cmndf sr xs) 0 (maxPeriod sr - 1 - 0) = some 0 := by
        rw [show maxPeriod sr - 1 - 0 = (maxPeriod sr - 2) + 1 from by omega, firstDip,
          List.range'_succ]
        refine List.find?_cons_of_pos _ ?_
        simp only [decide_eq_true_eq]
        rw [hc0]
        norm_num
      have hd : dipTau (cmndf sr xs) 0 (maxPeriod sr) = 0 := by
        rw [dipTau, hcode]
        exact hdes0
      have hstay : argminFold (cmndf sr xs) (List.range' (0 + 1) (maxPeriod sr - (0 + 1)))
          (0, cmndf sr xs 0) = (0, cmndf sr xs 0) := by
        refine argminFold_stay (cmndf sr xs) _ 0 (cmndf sr xs 0) ?_
        intro t _
        rw [hc0]
        exact not_lt.mpr (cmndf_nonneg sr xs t)
      rw [codeSelect, if_pos hd, hr, hstay]
      rw [if_neg (by show ¬ cmndf sr xs 0 > 1 / 2; rw [hc0]; norm_num)]
      rfl

/-- C1: for every buffer long enough for the estimator's precondition, the
source's `autocorrelate` computes exactly the reference algorithm of spec
section 4.2 (`refEstimate`), with the reference's "none" outcome rendered as
the code's `0` sentinel. -/
theorem C1_autocorrelate_matches_spec (sr : ℕ) (xs : List ℝ)
    (h : 2 * maxPeriod sr ≤ xs.length) :
    autocorrelate sr xs = (refEstimate sr xs).getD 0 := by
  rw [autocorrelate, if_neg (by omega), refEstimate]
  by_cases h1 : 1 ≤ minPeriod sr
  · exact codeSelect_eq_refSelect sr (cmndf sr xs) (minPeriod sr) (maxPeriod sr) h1
  · exact codeSelect_eq_refSelect_zero sr xs (by omega)

theorem C1_witness :
    autocorrelate 1500 (List.replicate 50 (0 : ℝ)) =
      (refEstimate 1500 (List.replicate 50 (0 : ℝ))).getD 0 :=
  C1_autocorrelate_matches_spec 1500 (List.replicate 50 (0 : ℝ))
    (by rw [List.length_replicate, show maxPeriod 1500 = 25 from rfl])

end Tuner
